import Mathlib

/-!
Verification of the ezmpc SPDZ online-phase implementation.

This file gives a shallow embedding of the core of the repository:
the prime-field/share algebra (`crypto.rs`, `algebra.rs`), the register
machine (`vm.rs`), the party runtime's MAC check and action handling
(`party.rs`), the synchronizer (`synchronizer.rs`) and the message layer
(`message.rs`).  Channel interaction is made explicit: messages pending on
a channel are lists, and values a component receives back from its
environment are oracle parameters.  Randomness (the `rng` arguments of the
Rust code) is modelled by explicit streams of field elements.
-/

namespace Ezmpc

/-- The prime modulus fixed in `algebra.rs` (`P = 2^128 - 159`). -/
def P : ℕ := 340282366920938463463374607431768211297

/-- The field `Fp` of `algebra.rs`: integers modulo the fixed prime. -/
abbrev Fp := ZMod P

instance : Fact (1 < P) := ⟨by norm_num [P]⟩

instance : NeZero P := ⟨by norm_num [P]⟩

/-- The party identifier type from `message.rs` (`pub type PartyID = usize`). -/
abbrev PartyID := ℕ

/-- An authenticated share, from `crypto.rs`: an additive share of a secret
together with an additive share of its MAC. -/
structure AuthShare where
  share : Fp
  mac : Fp
deriving DecidableEq

/-- Componentwise addition of authenticated shares (`impl_op_ex!(+ ...)` in crypto.rs). -/
instance : Add AuthShare := ⟨fun a b => ⟨a.share + b.share, a.mac + b.mac⟩⟩

/-- Componentwise subtraction of authenticated shares (`impl_op_ex!(- ...)` in crypto.rs). -/
instance : Sub AuthShare := ⟨fun a b => ⟨a.share - b.share, a.mac - b.mac⟩⟩

/-- Model of `AuthShare::mul_clear` from crypto.rs: scale both components by a clear value. -/
def AuthShare.mul_clear (a : AuthShare) (rhs : Fp) : AuthShare :=
  ⟨a.share * rhs, a.mac * rhs⟩

/-- Model of `AuthShare::add_clear` from crypto.rs: add a clear value to the share
(only when `update_share` is set) and always update the MAC. -/
def AuthShare.add_clear (a : AuthShare) (rhs : Fp) (alpha_share : Fp) (update_share : Bool) : AuthShare :=
  ⟨if update_share then a.share + rhs else a.share, a.mac + alpha_share * rhs⟩

/-- Model of `unauth_share` from crypto.rs: the first `n-1` shares are the random draws
`rs 0, …, rs (n-2)`; the final share is the secret minus their sum. -/
def unauth_share (secret : Fp) (n : ℕ) (rs : ℕ → Fp) : List Fp :=
  ((List.range (n - 1)).map rs) ++ [secret - ((List.range (n - 1)).map rs).sum]

/-- Model of `unauth_combine` from crypto.rs: sum all the shares. -/
def unauth_combine (shares : List Fp) : Fp := shares.sum

/-- Model of `auth_share` from crypto.rs: zip an unauthenticated sharing of the secret
with an unauthenticated sharing of `secret * alpha`.  The Rust code draws the
share randomness before the MAC randomness from one rng; the two draws are
modelled by the streams `rs` and `ms`. -/
def auth_share (secret : Fp) (n : ℕ) (alpha : Fp) (rs ms : ℕ → Fp) : List AuthShare :=
  List.zipWith AuthShare.mk (unauth_share secret n rs) (unauth_share (secret * alpha) n ms)

/-- Model of `REG_SIZE` from vm.rs: each register bank has 32 slots. -/
def REG_SIZE : ℕ := 32

instance : NeZero REG_SIZE := ⟨by norm_num [REG_SIZE]⟩

/-- Register addresses.  Rust uses `usize` and panics when an index reaches
past the array; the instructions in every program of the repository stay
below `REG_SIZE`, which the index type makes explicit. -/
abbrev RegAddr := Fin REG_SIZE

/-- Model of `Reg` from vm.rs: two fixed-size banks of optional values. -/
@[ext]
structure Reg where
  clear : RegAddr → Option Fp
  secret : RegAddr → Option AuthShare

/-- Model of `Reg::empty` from vm.rs. -/
def Reg.empty : Reg := ⟨fun _ => none, fun _ => none⟩

/-- Model of `Reg::from_vec` from vm.rs: slot `i` of each bank is set from the input
vector for `i < min (input length) REG_SIZE` and left `None` otherwise. -/
def Reg.from_vec (vclear : List Fp) (vsecret : List AuthShare) : Reg :=
  { clear := fun i => if i.val < min vclear.length REG_SIZE then vclear.get? i.val else none,
    secret := fun i => if i.val < min vsecret.length REG_SIZE then vsecret.get? i.val else none }

/-- One of the two MAC-check failure kinds raised by `Party::mac_check`. -/
inductive MACCheckError
  | BadCommitment
  | SumIsNotZero
deriving DecidableEq

namespace commit

/-- A commitment from `crypto.rs`: a 32-byte hash, modelled as a number. -/
structure Commitment where
  c : ℕ
deriving DecidableEq

/-- An opening from `crypto.rs`: the committed value and the 32-byte
commitment randomness, the latter modelled as a number. -/
structure Opening where
  v : Fp
  r : ℕ
deriving DecidableEq

/-- Model of `Opening::get_v` from crypto.rs. -/
def Opening.get_v (o : Opening) : Fp := o.v

/-- Model of `commit::Scheme::commit` from crypto.rs.  The SHA3-256 digest of
`r ‖ serialize(v)` is abstracted as the function `H`; the randomness drawn
from the rng is the explicit argument `r`. -/
def commit (H : ℕ → Fp → ℕ) (secret : Fp) (r : ℕ) : Commitment × Opening :=
  (⟨H r secret⟩, ⟨secret, r⟩)

/-- Model of `commit::Scheme::verify` from crypto.rs: recompute the digest from the
opening and compare with the commitment. -/
def verify (H : ℕ → Fp → ℕ) (opening : Opening) (com : Commitment) : Bool :=
  com.c == H opening.r opening.v

end commit

/-- Model of `Party::mac_check` from party.rs for one pair `(x, share)`.  The party
computes `d = α_i·x − share.mac`, commits to it (broadcasting the commitment
and later the opening, returned as the first component) and gathers the `n`
commitments and `n` openings delivered by its receive channels (`d_coms`,
`d_opens`, which include its own echo).  It verifies each opening against the
commitment gathered from the same channel and checks the opened values sum to
zero. -/
def mac_check (H : ℕ → Fp → ℕ) (alpha_share : Fp) (com_rand : ℕ) (x : Fp) (share : AuthShare)
    (d_coms : List commit.Commitment) (d_opens : List commit.Opening) :
    (commit.Commitment × commit.Opening) × Except MACCheckError Unit :=
  let d := alpha_share * x - share.mac
  let (d_com, d_open) := commit.commit H d com_rand
  let coms_ok := (d_opens.zip d_coms).all fun p => commit.verify H p.1 p.2
  let zero_ok := decide ((d_opens.map commit.Opening.get_v).sum = 0)
  ((d_com, d_open),
    if !coms_ok then .error .BadCommitment
    else if !zero_ok then .error .SumIsNotZero
    else .ok ())

/-- Model of `SyncMsg` from message.rs: synchronizer-to-party messages. -/
inductive SyncMsg
  | Start
  | Next
  | Abort
deriving DecidableEq, BEq

/-- Model of `SyncReplyMsg` from message.rs: party-to-synchronizer replies. -/
inductive SyncReplyMsg
  | Ok
  | Done
  | Abort
deriving DecidableEq, BEq

/-- How a synchronizer run ended: `success` is `Synchronizer::listen`
returning `Ok(())` after an all-`Done` gather, `aborted` is the `Ok(())`
return after broadcasting `Abort`, `fatal` is the `panic!` branch, and
`pending` means the given gathers were exhausted with the loop still
running. -/
inductive SyncOutcome
  | success
  | aborted
  | fatal
  | pending
deriving DecidableEq

/-- The loop of `Synchronizer::listen` from synchronizer.rs, run on the
successive reply gathers; returns the broadcasts it makes and the outcome.
Each gather is the vector of `n` replies `recv_all` returns (one per party,
in channel order). -/
def sync_loop : List (List SyncReplyMsg) → List SyncMsg × SyncOutcome
  | [] => ([], .pending)
  | msgs :: rest =>
    if msgs.all (· == SyncReplyMsg.Done) then ([], .success)
    else if msgs.contains SyncReplyMsg.Abort then ([SyncMsg.Abort], .aborted)
    else if msgs.all (· == SyncReplyMsg.Ok) then
      let p := sync_loop rest
      (SyncMsg.Next :: p.1, p.2)
    else ([], .fatal)

/-- Model of `Synchronizer::spawn` followed by `listen` from synchronizer.rs: broadcast
`Start`, broadcast `Next`, then run the gather loop. -/
def sync_run (gathers : List (List SyncReplyMsg)) : List SyncMsg × SyncOutcome :=
  let p := sync_loop gathers
  (SyncMsg.Start :: SyncMsg.Next :: p.1, p.2)

/-- Model of `PartyMsg` from message.rs: messages exchanged between parties. -/
inductive PartyMsg
  | Elem (x : Fp)
  | Com (c : commit.Commitment)
  | Opening (o : commit.Opening)
deriving DecidableEq

/-- Model of `PartyMsg::unwrap_elem` from message.rs; the Rust version panics on any
other variant, modelled by `none`. -/
def PartyMsg.unwrap_elem : PartyMsg → Option Fp
  | .Elem x => some x
  | _ => none

/-- Model of `message::broadcast` from message.rs: enqueue the same message on each of
the `k` send channels; the result lists the message sent on each channel, in
channel order. -/
def broadcast (k : ℕ) (m : PartyMsg) : List PartyMsg :=
  List.replicate k m

/-- Model of `message::receive` from message.rs: take one pending message from every
receive channel, in channel order; `none` models the timeout that fires when
some channel has nothing to deliver. -/
def receive : List (List PartyMsg) → Option (List PartyMsg)
  | [] => some []
  | c :: cs =>
    match c.head? with
    | none => none
    | some m => (receive cs).map (m :: ·)

/-- Unwrap every gathered message as a field element, in order; the Rust
iterator panics (modelled by `none`) on a non-`Elem` message. -/
def unwrap_elems : List PartyMsg → Option (List Fp)
  | [] => some []
  | m :: ms =>
    match m.unwrap_elem with
    | none => none
    | some x => (unwrap_elems ms).map (x :: ·)

/-- The `Action::Open` arm of `Party::handle_vm_actions` from party.rs:
broadcast `Elem(share)` on all `k` send channels, then gather one message per
receive channel and reply with the sum of the unwrapped elements. -/
def handle_open (k : ℕ) (x : Fp) (chans : List (List PartyMsg)) :
    List PartyMsg × Option Fp :=
  (broadcast k (PartyMsg.Elem x),
   (receive chans).bind fun ms => (unwrap_elems ms).map List.sum)

/-- The error type shared by vm.rs and party.rs.  The repository's `error`
module lags behind the code; the variants are taken from their construction
sites: `EmptyError` from `opt_to_res`, a timeout variant from the
`recv_timeout` conversions, and MAC-check failures surfaced through
`Action::Check` replies. -/
inductive MPCError
  | EmptyError
  | RecvTimeout
  | MacCheckFailed (e : MACCheckError)
deriving DecidableEq

/-- Model of `TripleMsg` from message.rs: one party's shares of a Beaver triple. -/
structure TripleMsg where
  a : AuthShare
  b : AuthShare
  c : AuthShare
deriving DecidableEq

/-- Model of `RandShareMsg` from message.rs: a share of a random value, with the clear
value present only at the party `party_id`. -/
structure RandShareMsg where
  share : AuthShare
  clear : Option Fp
  party_id : PartyID
deriving DecidableEq

/-- The state of the `VM` struct from vm.rs.  The two preprocessing receive
channels hold their pending messages as lists in arrival order (head =
earliest).  `rand_msgs` is the per-owner buffer (the Rust `HashMap`; an
absent key and an empty bucket behave identically, so buckets are a total
function).  `opened_log` is the `partial_openings` vector. -/
structure VMState where
  id : PartyID
  alpha_share : Fp
  reg : Reg
  triple_chan : List TripleMsg
  rand_chan : List RandShareMsg
  rand_msgs : PartyID → List RandShareMsg
  opened_log : List (Fp × AuthShare)

/-- The environment of one VM instruction: the replies the party runtime
sends back on the one-shot channels of `Action::Open`, `Action::Input` and
`Action::Check` (`none` models a receive timeout).  The check reply may
depend on the opening log the VM put into the `Action::Check` message. -/
structure Oracle where
  open_resp : Option Fp
  input_resp : Option Fp
  check_resp : List (Fp × AuthShare) → Option (Except MACCheckError Unit)

/-- Model of `VM::do_clear_op` from vm.rs: read two clear registers, apply `op`, store
in `clear[r0]`; `EmptyError` when a source is unset.  The Rust method mutates
`self` and returns a `Result`; here it returns the result together with the
state as mutated up to the point of return. -/
def do_clear_op (s : VMState) (r0 r1 r2 : RegAddr) (op : Fp → Fp → Fp) :
    Except MPCError Unit × VMState :=
  match s.reg.clear r1, s.reg.clear r2 with
  | some a, some b =>
    (.ok (), { s with reg := { s.reg with clear := Function.update s.reg.clear r0 (some (op a b)) } })
  | _, _ => (.error .EmptyError, s)

/-- Model of `VM::do_secret_op` from vm.rs. -/
def do_secret_op (s : VMState) (r0 r1 r2 : RegAddr) (op : AuthShare → AuthShare → AuthShare) :
    Except MPCError Unit × VMState :=
  match s.reg.secret r1, s.reg.secret r2 with
  | some a, some b =>
    (.ok (), { s with reg := { s.reg with secret := Function.update s.reg.secret r0 (some (op a b)) } })
  | _, _ => (.error .EmptyError, s)

/-- Model of `VM::do_mixed_add` from vm.rs. -/
def do_mixed_add (s : VMState) (s_r0 s_r1 c_r2 : RegAddr) (id : PartyID) :
    Except MPCError Unit × VMState :=
  match s.reg.secret s_r1, s.reg.clear c_r2 with
  | some a, some b =>
    (.ok (), { s with reg := { s.reg with
        secret := Function.update s.reg.secret s_r0 (some (a.add_clear b s.alpha_share (s.id == id))) } })
  | _, _ => (.error .EmptyError, s)

/-- Model of `VM::do_mixed_mul` from vm.rs. -/
def do_mixed_mul (s : VMState) (s_r0 s_r1 c_r2 : RegAddr) :
    Except MPCError Unit × VMState :=
  match s.reg.secret s_r1, s.reg.clear c_r2 with
  | some a, some b =>
    (.ok (), { s with reg := { s.reg with
        secret := Function.update s.reg.secret s_r0 (some (a.mul_clear b)) } })
  | _, _ => (.error .EmptyError, s)

/-- The drain loop of `VM::get_rand_share_for_id`: append every message
pending on the rand channel to its owner's bucket, in arrival order. -/
def drain_rand : (PartyID → List RandShareMsg) → List RandShareMsg → (PartyID → List RandShareMsg)
  | m, [] => m
  | m, r :: rest => drain_rand (Function.update m r.party_id (m r.party_id ++ [r])) rest

/-- Model of `VM::get_rand_share_for_id` from vm.rs: drain the rand channel into the
per-owner buffers, then `pop` (remove the last element, LIFO) from the bucket
of `id`; `EmptyError` when that bucket is absent or empty. -/
def get_rand_share_for_id (s : VMState) (id : PartyID) :
    Except MPCError RandShareMsg × VMState :=
  let m := drain_rand s.rand_msgs s.rand_chan
  match (m id).getLast? with
  | none => (.error .EmptyError, { s with rand_chan := [], rand_msgs := m })
  | some r =>
    (.ok r, { s with rand_chan := [],
                     rand_msgs := Function.update m id (m id).dropLast })

/-- The owner branch of `VM::do_input`: the owner reads `x` from `clear[r1]`
and computes the offset `e = x − r_clear` it will broadcast inside
`Action::Input`; every other party contributes no offset. -/
def input_offset (s1 : VMState) (r1 : RegAddr) (id : PartyID) (rand_share : RandShareMsg) :
    Except MPCError (Option Fp) :=
  if s1.id == id then
    match s1.reg.clear r1 with
    | none => .error .EmptyError
    | some x =>
      match rand_share.clear with
      | none => .error .EmptyError
      | some rc => .ok (some (x - rc))
  else .ok none

/-- Model of `VM::do_input` from vm.rs.  The ok value is the offset the VM put into
`Action::Input` (`some e` at the owner, `none` elsewhere); `e_resp` is the
element received back from the party runtime. -/
def do_input (s : VMState) (r0 r1 : RegAddr) (id : PartyID) (e_resp : Option Fp) :
    Except MPCError (Option Fp) × VMState :=
  match get_rand_share_for_id s id with
  | (.error e, s1) => (.error e, s1)
  | (.ok rand_share, s1) =>
    match input_offset s1 r1 id rand_share with
    | .error e => (.error e, s1)
    | .ok o =>
      match e_resp with
      | none => (.error .RecvTimeout, s1)
      | some e =>
        (.ok o, { s1 with reg := { s1.reg with
            secret := Function.update s1.reg.secret r0
              (some (rand_share.share.add_clear e s1.alpha_share (s1.id == id))) } })

/-- Model of `VM::do_triple` from vm.rs: receive the next triple (FIFO) from the
triple channel and store its three shares. -/
def do_triple (s : VMState) (r0 r1 r2 : RegAddr) : Except MPCError Unit × VMState :=
  match s.triple_chan with
  | [] => (.error .RecvTimeout, s)
  | t :: rest =>
    let sec :=
      Function.update (Function.update (Function.update s.reg.secret r0 (some t.a)) r1 (some t.b)) r2 (some t.c)
    (.ok (), { s with triple_chan := rest, reg := { s.reg with secret := sec } })

/-- Model of `VM::do_open` from vm.rs: send `Action::Open(share)`, receive the summed
opening, store it in `clear[to]` and push `(opened, share)` onto the opening
log. -/
def do_open (s : VMState) (to_ from_ : RegAddr) (o : Oracle) :
    Except MPCError Unit × VMState :=
  match s.reg.secret from_ with
  | none => (.error .EmptyError, s)
  | some for_opening =>
    match o.open_resp with
    | none => (.error .RecvTimeout, s)
    | some opened =>
      (.ok (), { s with
          reg := { s.reg with clear := Function.update s.reg.clear to_ (some opened) },
          opened_log := s.opened_log ++ [(opened, for_opening)] })

/-- Model of `VM::do_mac_check` from vm.rs: send `Action::Check` with the whole
opening log, wait for the verdict; clear the log only on success. -/
def do_mac_check (s : VMState) (o : Oracle) : Except MPCError Unit × VMState :=
  match o.check_resp s.opened_log with
  | none => (.error .RecvTimeout, s)
  | some (.error e) => (.error (.MacCheckFailed e), s)
  | some (.ok ()) => (.ok (), { s with opened_log := [] })

/-- Model of `VM::do_secret_output` from vm.rs: open the register like `do_open` but
without storing the opened value, push the opening onto the log, run the MAC
check over the whole log, and on success return the register's own share. -/
def do_secret_output (s : VMState) (reg : RegAddr) (o : Oracle) :
    Except MPCError Fp × VMState :=
  match s.reg.secret reg with
  | none => (.error .EmptyError, s)
  | some x =>
    match o.open_resp with
    | none => (.error .RecvTimeout, s)
    | some opened =>
      let p := do_mac_check { s with opened_log := s.opened_log ++ [(opened, x)] } o
      (p.1.map fun _ => x.share, p.2)

/-- Model of `Instruction` from vm.rs. -/
inductive Instruction
  | CAdd (r0 r1 r2 : RegAddr)
  | CSub (r0 r1 r2 : RegAddr)
  | CMul (r0 r1 r2 : RegAddr)
  | SAdd (r0 r1 r2 : RegAddr)
  | SSub (r0 r1 r2 : RegAddr)
  | MAdd (s0 s1 c2 : RegAddr) (id : PartyID)
  | MMul (s0 s1 c2 : RegAddr)
  | Input (r0 r1 : RegAddr) (id : PartyID)
  | Triple (r0 r1 r2 : RegAddr)
  | Open (to_ from_ : RegAddr)
  | COutput (reg : RegAddr)
  | SOutput (reg : RegAddr)
  | Stop
deriving DecidableEq

/-- One iteration of the dispatch in `VM::listen` from vm.rs.  The ok value
is the element the iteration appends to the output vector (`COutput` and
`SOutput` push one; everything else pushes nothing). -/
def vm_step (s : VMState) (inst : Instruction) (o : Oracle) :
    Except MPCError (Option Fp) × VMState :=
  match inst with
  | .CAdd r0 r1 r2 =>
    let p := do_clear_op s r0 r1 r2 (· + ·)
    (p.1.map fun _ => none, p.2)
  | .CSub r0 r1 r2 =>
    let p := do_clear_op s r0 r1 r2 (· - ·)
    (p.1.map fun _ => none, p.2)
  | .CMul r0 r1 r2 =>
    let p := do_clear_op s r0 r1 r2 (· * ·)
    (p.1.map fun _ => none, p.2)
  | .SAdd r0 r1 r2 =>
    let p := do_secret_op s r0 r1 r2 (· + ·)
    (p.1.map fun _ => none, p.2)
  | .SSub r0 r1 r2 =>
    let p := do_secret_op s r0 r1 r2 (· - ·)
    (p.1.map fun _ => none, p.2)
  | .MAdd s0 s1 c2 id =>
    let p := do_mixed_add s s0 s1 c2 id
    (p.1.map fun _ => none, p.2)
  | .MMul s0 s1 c2 =>
    let p := do_mixed_mul s s0 s1 c2
    (p.1.map fun _ => none, p.2)
  | .Input r0 r1 id =>
    let p := do_input s r0 r1 id o.input_resp
    (p.1.map fun _ => none, p.2)
  | .Triple r0 r1 r2 =>
    let p := do_triple s r0 r1 r2
    (p.1.map fun _ => none, p.2)
  | .Open to_ from_ =>
    let p := do_open s to_ from_ o
    (p.1.map fun _ => none, p.2)
  | .COutput reg =>
    match s.reg.clear reg with
    | none => (.error .EmptyError, s)
    | some v => (.ok (some v), s)
  | .SOutput reg =>
    let p := do_secret_output s reg o
    (p.1.map fun v => some v, p.2)
  | .Stop =>
    if s.opened_log.isEmpty then (.ok none, s)
    else
      let p := do_mac_check s o
      (p.1.map fun _ => none, p.2)

/-- Model of `VM::listen` from vm.rs: execute the pending instructions in order
against the given per-instruction environments, accumulating the output
vector; `Stop` returns the outputs, and the VM halts with the first error.
An instruction stream that ends without `Stop` times out on the instruction
channel. -/
def vm_listen : VMState → List Instruction → (ℕ → Oracle) → List Fp → Except MPCError (List Fp)
  | _, [], _, _ => .error .RecvTimeout
  | s, inst :: rest, os, out =>
    match vm_step s inst (os 0) with
    | (.error e, _) => .error e
    | (.ok v, s1) =>
      match inst with
      | .Stop => .ok out
      | _ => vm_listen s1 rest (fun n => os (n + 1)) (out ++ v.toList)

/-- Witness state for concrete VM runs: party 0, zero MAC key share, empty
registers, no pending preprocessing, empty opening log. -/
def vm0 : VMState :=
  { id := 0, alpha_share := 0, reg := Reg.empty, triple_chan := [], rand_chan := [],
    rand_msgs := fun _ => [], opened_log := [] }

/-- An environment that never answers: every reply channel times out. -/
def oracle0 : Oracle :=
  { open_resp := none, input_resp := none, check_resp := fun _ => none }

/-- A concrete triple share. -/
def t0 : TripleMsg := ⟨⟨0, 0⟩, ⟨1, 1⟩, ⟨0, 0⟩⟩

/-- A concrete rand-share owned by party 0, clear value present. -/
def msg0 : RandShareMsg := ⟨⟨0, 0⟩, some 0, 0⟩

/-- A state with one pending triple and one buffered rand-share for owner 0. -/
def vm1 : VMState :=
  { id := 0, alpha_share := 0, reg := Reg.empty, triple_chan := [t0], rand_chan := [],
    rand_msgs := fun _ => [msg0], opened_log := [] }

/-- The registers an instruction reads, as a test for "some read register is
empty": the clear sources of the `C` operations and of `COutput`, the secret
sources of the `S` operations, `Open` and `SOutput`, and the mixed sources of
`MAdd`/`MMul`. -/
def reads_empty (s : VMState) : Instruction → Bool
  | .CAdd _ r1 r2 => (s.reg.clear r1).isNone || (s.reg.clear r2).isNone
  | .CSub _ r1 r2 => (s.reg.clear r1).isNone || (s.reg.clear r2).isNone
  | .CMul _ r1 r2 => (s.reg.clear r1).isNone || (s.reg.clear r2).isNone
  | .SAdd _ r1 r2 => (s.reg.secret r1).isNone || (s.reg.secret r2).isNone
  | .SSub _ r1 r2 => (s.reg.secret r1).isNone || (s.reg.secret r2).isNone
  | .MAdd _ s1 c2 _ => (s.reg.secret s1).isNone || (s.reg.clear c2).isNone
  | .MMul _ s1 c2 => (s.reg.secret s1).isNone || (s.reg.clear c2).isNone
  | .Open _ from_ => (s.reg.secret from_).isNone
  | .COutput r => (s.reg.clear r).isNone
  | .SOutput r => (s.reg.secret r).isNone
  | _ => false

/-- The register-reading instruction class of the claim: everything except
`Input`, `Triple` and `Stop`. -/
def reg_reading : Instruction → Bool
  | .Input _ _ _ => false
  | .Triple _ _ _ => false
  | .Stop => false
  | _ => true

/-- A state whose secret register 0 holds the share `(0, 0)`. -/
def vm2 : VMState :=
  { id := 0, alpha_share := 0,
    reg := { clear := fun _ => none,
             secret := Function.update (fun _ => none) 0 (some ⟨0, 0⟩) },
    triple_chan := [], rand_chan := [], rand_msgs := fun _ => [], opened_log := [] }

/-- An environment whose summed opening is 1 and whose MAC check passes. -/
def oracle1 : Oracle :=
  { open_resp := some 1, input_resp := none, check_resp := fun _ => some (.ok ()) }

/-- The owner party's state for the C4 witness: clear register `c = 0` holds
the input 0, the rand channel holds one rand-share for owner 0. -/
def vm3 : VMState :=
  { id := 0, alpha_share := 0,
    reg := { clear := fun _ => some 0, secret := fun _ => none },
    triple_chan := [], rand_chan := [⟨⟨0, 0⟩, some 0, 0⟩],
    rand_msgs := fun _ => [], opened_log := [] }

theorem add_share (a b : AuthShare) : (a + b).share = a.share + b.share := rfl

theorem add_mac (a b : AuthShare) : (a + b).mac = a.mac + b.mac := rfl

theorem unauth_share_length (secret : Fp) (n : ℕ) (rs : ℕ → Fp) (h : 1 ≤ n) :
    (unauth_share secret n rs).length = n := by
  simp [unauth_share]
  omega

theorem unauth_share_sum (secret : Fp) (n : ℕ) (rs : ℕ → Fp) :
    (unauth_share secret n rs).sum = secret := by
  simp [unauth_share]

theorem zipWith_mk_map_share (l1 l2 : List Fp) (h : l1.length = l2.length) :
    (List.zipWith AuthShare.mk l1 l2).map AuthShare.share = l1 := by
  induction l1 generalizing l2 with
  | nil => simp
  | cons a t ih =>
    cases l2 with
    | nil => simp at h
    | cons b t2 =>
      simp only [List.zipWith_cons_cons, List.map_cons]
      rw [ih t2 (by simpa using h)]

theorem zipWith_mk_map_mac (l1 l2 : List Fp) (h : l1.length = l2.length) :
    (List.zipWith AuthShare.mk l1 l2).map AuthShare.mac = l2 := by
  induction l1 generalizing l2 with
  | nil => cases l2 with
    | nil => simp
    | cons b t2 => simp at h
  | cons a t ih =>
    cases l2 with
    | nil => simp at h
    | cons b t2 =>
      simp only [List.zipWith_cons_cons, List.map_cons]
      rw [ih t2 (by simpa using h)]

/-- C3: for every secret `x`, MAC key `alpha`, and `n ≥ 1` (and all random
draws), `auth_share x n alpha` returns exactly `n` authenticated shares whose
share components sum to `x` and whose MAC components sum to `alpha * x`. -/
theorem auth_share_correct (x alpha : Fp) (n : ℕ) (rs ms : ℕ → Fp) (h : 1 ≤ n) :
    (auth_share x n alpha rs ms).length = n ∧
    ((auth_share x n alpha rs ms).map AuthShare.share).sum = x ∧
    ((auth_share x n alpha rs ms).map AuthShare.mac).sum = alpha * x := by
  have hlen : (unauth_share x n rs).length = (unauth_share (x * alpha) n ms).length := by
    rw [unauth_share_length x n rs h, unauth_share_length (x * alpha) n ms h]
  refine ⟨?_, ?_, ?_⟩
  · rw [auth_share, List.length_zipWith, unauth_share_length x n rs h,
      unauth_share_length (x * alpha) n ms h, min_self]
  · rw [auth_share, zipWith_mk_map_share _ _ hlen, unauth_share_sum]
  · rw [auth_share, zipWith_mk_map_mac _ _ hlen, unauth_share_sum, mul_comm]

/-- Witness for C3 at `n = 2` with zero randomness and `x = 0`, `alpha = 0`. -/
theorem auth_share_correct_witness :
    1 ≤ 2 ∧
    ((auth_share 0 2 0 (fun _ => 0) (fun _ => 0)).length = 2 ∧
     ((auth_share 0 2 0 (fun _ => 0) (fun _ => 0)).map AuthShare.share).sum = 0 ∧
     ((auth_share 0 2 0 (fun _ => 0) (fun _ => 0)).map AuthShare.mac).sum = (0 : Fp) * 0) :=
  ⟨by norm_num, auth_share_correct 0 0 2 (fun _ => 0) (fun _ => 0) (by norm_num)⟩

/-- C10: each bank has exactly 32 slots; `Reg.from_vec` fills slot `i` with
`some (input i)` for `i < min (input length) 32`, leaves every other slot
`none`, and silently ignores input elements at index 32 or beyond (the result
only depends on the first 32 elements of each input; the function is total,
it never fails). -/
theorem from_vec_spec :
    REG_SIZE = 32 ∧
    (∀ (vclear : List Fp) (vsecret : List AuthShare) (i : RegAddr),
      (i.val < min vclear.length REG_SIZE →
        (Reg.from_vec vclear vsecret).clear i = vclear.get? i.val ∧ vclear.get? i.val ≠ none) ∧
      (min vclear.length REG_SIZE ≤ i.val → (Reg.from_vec vclear vsecret).clear i = none) ∧
      (i.val < min vsecret.length REG_SIZE →
        (Reg.from_vec vclear vsecret).secret i = vsecret.get? i.val ∧ vsecret.get? i.val ≠ none) ∧
      (min vsecret.length REG_SIZE ≤ i.val → (Reg.from_vec vclear vsecret).secret i = none)) ∧
    (∀ (vclear : List Fp) (vsecret : List AuthShare),
      Reg.from_vec vclear vsecret = Reg.from_vec (vclear.take REG_SIZE) (vsecret.take REG_SIZE)) := by
  refine ⟨rfl, ?_, ?_⟩
  · intro vclear vsecret i
    refine ⟨?_, ?_, ?_, ?_⟩
    · intro h
      have hlt : i.val < vclear.length := lt_of_lt_of_le h (min_le_left _ _)
      refine ⟨by simp only [Reg.from_vec]; rw [if_pos h], ?_⟩
      intro hnone
      rw [List.get?_eq_none] at hnone
      omega
    · intro h
      simp only [Reg.from_vec]
      rw [if_neg (by omega)]
    · intro h
      have hlt : i.val < vsecret.length := lt_of_lt_of_le h (min_le_left _ _)
      refine ⟨by simp only [Reg.from_vec]; rw [if_pos h], ?_⟩
      intro hnone
      rw [List.get?_eq_none] at hnone
      omega
    · intro h
      simp only [Reg.from_vec]
      rw [if_neg (by omega)]
  · intro vclear vsecret
    ext i
    · simp only [Reg.from_vec, List.length_take]
      by_cases h : i.val < min vclear.length REG_SIZE
      · have h32 : i.val < REG_SIZE := i.isLt
        rw [if_pos h, if_pos (by omega), List.get?_take (by omega)]
      · rw [if_neg h, if_neg (by omega)]
    · simp only [Reg.from_vec, List.length_take]
      by_cases h : i.val < min vsecret.length REG_SIZE
      · have h32 : i.val < REG_SIZE := i.isLt
        rw [if_pos h, if_pos (by omega), List.get?_take (by omega)]
      · rw [if_neg h, if_neg (by omega)]

/-- Witness for C10: slot 0 of a one-element clear input is filled. -/
theorem from_vec_spec_witness :
    ((0 : RegAddr) : ℕ) < min ([(0 : Fp)].length) REG_SIZE ∧
    (Reg.from_vec [(0 : Fp)] []).clear 0 = [(0 : Fp)].get? ((0 : RegAddr) : ℕ) :=
  ⟨by decide,
   ((from_vec_spec.2.1 [(0 : Fp)] [] 0).1 (by decide)).1⟩

/-- C2: in one MAC check over `(x, share)` the party commits to
`d_i = α_i·x − share.mac`; the check succeeds iff every gathered opening
verifies against its corresponding commitment and the opened values sum to
zero; a failed verification yields `BadCommitment`, and all-verified openings
with a nonzero sum yield `SumIsNotZero`. -/
theorem mac_check_spec (H : ℕ → Fp → ℕ) (alpha_share : Fp) (com_rand : ℕ) (x : Fp)
    (share : AuthShare) (d_coms : List commit.Commitment) (d_opens : List commit.Opening) :
    (mac_check H alpha_share com_rand x share d_coms d_opens).1.2.v
      = alpha_share * x - share.mac ∧
    (mac_check H alpha_share com_rand x share d_coms d_opens).1.1.c
      = H com_rand (alpha_share * x - share.mac) ∧
    ((mac_check H alpha_share com_rand x share d_coms d_opens).2 = .ok () ↔
      ((d_opens.zip d_coms).all fun p => commit.verify H p.1 p.2) = true ∧
      (d_opens.map commit.Opening.get_v).sum = 0) ∧
    ((mac_check H alpha_share com_rand x share d_coms d_opens).2 = .error .BadCommitment ↔
      ((d_opens.zip d_coms).all fun p => commit.verify H p.1 p.2) = false) ∧
    ((mac_check H alpha_share com_rand x share d_coms d_opens).2 = .error .SumIsNotZero ↔
      ((d_opens.zip d_coms).all fun p => commit.verify H p.1 p.2) = true ∧
      (d_opens.map commit.Opening.get_v).sum ≠ 0) := by
  refine ⟨rfl, rfl, ?_, ?_, ?_⟩ <;>
  · simp only [mac_check, commit.commit]
    by_cases hc : ((d_opens.zip d_coms).all fun p => commit.verify H p.1 p.2) = true <;>
      by_cases hz : (d_opens.map commit.Opening.get_v).sum = 0 <;>
      simp [hc, hz]

/-- C5: the synchronizer broadcasts `Next` right after `Start`; at each
gather it halts with success when all replies are `Done`, otherwise
broadcasts `Abort` and halts when some reply is `Abort`, otherwise broadcasts
another `Next` and continues when all replies are `Ok`, and any other
combination is fatal. -/
theorem synchronizer_spec (gathers : List (List SyncReplyMsg))
    (msgs : List SyncReplyMsg) (rest : List (List SyncReplyMsg)) :
    (sync_run gathers).1.take 2 = [SyncMsg.Start, SyncMsg.Next] ∧
    (msgs.all (· == SyncReplyMsg.Done) = true →
      sync_loop (msgs :: rest) = ([], .success)) ∧
    (msgs.all (· == SyncReplyMsg.Done) = false → msgs.contains SyncReplyMsg.Abort = true →
      sync_loop (msgs :: rest) = ([SyncMsg.Abort], .aborted)) ∧
    (msgs.all (· == SyncReplyMsg.Done) = false → msgs.contains SyncReplyMsg.Abort = false →
      msgs.all (· == SyncReplyMsg.Ok) = true →
      sync_loop (msgs :: rest)
        = (SyncMsg.Next :: (sync_loop rest).1, (sync_loop rest).2)) ∧
    (msgs.all (· == SyncReplyMsg.Done) = false → msgs.contains SyncReplyMsg.Abort = false →
      msgs.all (· == SyncReplyMsg.Ok) = false →
      sync_loop (msgs :: rest) = ([], .fatal)) := by
  refine ⟨rfl, ?_, ?_, ?_, ?_⟩
  · intro h1
    simp [sync_loop, h1]
  · intro h1 h2
    simp [sync_loop, h1, h2]
  · intro h1 h2 h3
    simp [sync_loop, h1, h2, h3]
  · intro h1 h2 h3
    simp [sync_loop, h1, h2, h3]

/-- Witness for C5: a two-party cluster replying `Ok` once and then `Done`. -/
theorem synchronizer_spec_witness :
    ([SyncReplyMsg.Done, SyncReplyMsg.Done].all (· == SyncReplyMsg.Done) = true) ∧
    sync_loop [[SyncReplyMsg.Done, SyncReplyMsg.Done]] = ([], .success) :=
  ⟨by decide,
   (synchronizer_spec [] [SyncReplyMsg.Done, SyncReplyMsg.Done] []).2.1 (by decide)⟩

theorem unwrap_elems_map (es : List Fp) :
    unwrap_elems (es.map PartyMsg.Elem) = some es := by
  induction es with
  | nil => rfl
  | cons a t ih => simp [unwrap_elems, PartyMsg.unwrap_elem, ih]

theorem sum_eraseIdx (es : List Fp) (k : ℕ) (x : Fp) (hk : es.get? k = some x) :
    es.sum = x + (es.eraseIdx k).sum := by
  induction es generalizing k with
  | nil => simp at hk
  | cons a t ih =>
    cases k with
    | zero =>
      simp only [List.get?] at hk
      injection hk with hk
      subst hk
      simp [List.eraseIdx]
    | succ k =>
      simp only [List.get?] at hk
      rw [List.sum_cons, ih k hk, List.eraseIdx_cons_succ, List.sum_cons]
      ring

/-- C6: handling `Action::Open(share, reply)` broadcasts `Elem(share)` on
every peer channel, and when the receive channels deliver, in fixed channel
order, elements `es` (with the self channel `k0` delivering back the just
broadcast `share`), the reply is `share` plus the sum of the `n−1` elements
received from the peers. -/
theorem handle_open_spec (k : ℕ) (x : Fp) (chans : List (List PartyMsg))
    (es : List Fp) (k0 : ℕ)
    (hrecv : receive chans = some (es.map PartyMsg.Elem))
    (hself : es.get? k0 = some x) :
    (handle_open k x chans).1 = List.replicate k (PartyMsg.Elem x) ∧
    (∀ j, (handle_open k x chans).1.get? j = if j < k then some (PartyMsg.Elem x) else none) ∧
    (handle_open k x chans).2 = some (x + (es.eraseIdx k0).sum) := by
  refine ⟨rfl, ?_, ?_⟩
  · intro j
    simp [handle_open, broadcast, List.get?_eq_getElem?, List.getElem?_replicate]
  · simp only [handle_open]
    rw [hrecv]
    simp only [Option.some_bind, unwrap_elems_map, Option.map_some']
    rw [sum_eraseIdx es k0 x hself]

/-- Witness for C6: three channels, self channel 0 echoing the share. -/
theorem handle_open_spec_witness :
    receive [[PartyMsg.Elem 0], [PartyMsg.Elem 1], [PartyMsg.Elem 1]]
      = some ([(0 : Fp), 1, 1].map PartyMsg.Elem) ∧
    [(0 : Fp), 1, 1].get? 0 = some 0 ∧
    (handle_open 3 0 [[PartyMsg.Elem 0], [PartyMsg.Elem 1], [PartyMsg.Elem 1]]).2
      = some (0 + ([(0 : Fp), 1, 1].eraseIdx 0).sum) :=
  ⟨rfl, rfl,
   (handle_open_spec 3 0 [[PartyMsg.Elem 0], [PartyMsg.Elem 1], [PartyMsg.Elem 1]]
     [(0 : Fp), 1, 1] 0 rfl rfl).2.2⟩

theorem except_map_error {α β : Type} (r : Except MPCError α) (f : α → β) (e : MPCError)
    (h : r.map f = .error e) : r = .error e := by
  cases r with
  | error e2 => cases h; rfl
  | ok v => simp [Except.map] at h

theorem do_clear_op_err_reg (s : VMState) (r0 r1 r2 : RegAddr) (op : Fp → Fp → Fp)
    (e : MPCError) (h : (do_clear_op s r0 r1 r2 op).1 = .error e) :
    (do_clear_op s r0 r1 r2 op).2.reg = s.reg := by
  unfold do_clear_op at h ⊢
  split at h
  · simp at h
  · rfl

theorem do_secret_op_err_reg (s : VMState) (r0 r1 r2 : RegAddr)
    (op : AuthShare → AuthShare → AuthShare)
    (e : MPCError) (h : (do_secret_op s r0 r1 r2 op).1 = .error e) :
    (do_secret_op s r0 r1 r2 op).2.reg = s.reg := by
  unfold do_secret_op at h ⊢
  split at h
  · simp at h
  · rfl

theorem do_mixed_add_err_reg (s : VMState) (s0 s1 c2 : RegAddr) (id : PartyID)
    (e : MPCError) (h : (do_mixed_add s s0 s1 c2 id).1 = .error e) :
    (do_mixed_add s s0 s1 c2 id).2.reg = s.reg := by
  unfold do_mixed_add at h ⊢
  split at h
  · simp at h
  · rfl

theorem do_mixed_mul_err_reg (s : VMState) (s0 s1 c2 : RegAddr)
    (e : MPCError) (h : (do_mixed_mul s s0 s1 c2).1 = .error e) :
    (do_mixed_mul s s0 s1 c2).2.reg = s.reg := by
  unfold do_mixed_mul at h ⊢
  split at h
  · simp at h
  · rfl

theorem do_triple_err_reg (s : VMState) (r0 r1 r2 : RegAddr)
    (e : MPCError) (h : (do_triple s r0 r1 r2).1 = .error e) :
    (do_triple s r0 r1 r2).2.reg = s.reg := by
  unfold do_triple at h ⊢
  split at h
  · rfl
  · simp at h

theorem do_open_err_reg (s : VMState) (to_ from_ : RegAddr) (o : Oracle)
    (e : MPCError) (h : (do_open s to_ from_ o).1 = .error e) :
    (do_open s to_ from_ o).2.reg = s.reg := by
  unfold do_open at h ⊢
  split at h
  · rfl
  · split at h
    · rfl
    · simp at h

theorem get_rand_share_reg (s : VMState) (id : PartyID) :
    (get_rand_share_for_id s id).2.reg = s.reg := by
  simp only [get_rand_share_for_id]
  split <;> rfl

theorem do_mac_check_reg (s : VMState) (o : Oracle) :
    (do_mac_check s o).2.reg = s.reg := by
  unfold do_mac_check
  split <;> rfl

theorem do_input_err_reg (s : VMState) (r0 r1 : RegAddr) (id : PartyID) (e_resp : Option Fp)
    (e : MPCError) (h : (do_input s r0 r1 id e_resp).1 = .error e) :
    (do_input s r0 r1 id e_resp).2.reg = s.reg := by
  unfold do_input at h ⊢
  rcases hg : get_rand_share_for_id s id with ⟨res, s1⟩
  have hreg : s1.reg = s.reg := by
    have h2 := get_rand_share_reg s id
    rw [hg] at h2
    exact h2
  cases res with
  | error e2 => exact hreg
  | ok rand_share =>
    rcases hoff : input_offset s1 r1 id rand_share with e2 | v
    · simp only [hoff]
      exact hreg
    · cases e_resp with
      | none =>
        simp only [hoff]
        exact hreg
      | some ev =>
        rw [hg] at h
        simp [hoff] at h

theorem do_secret_output_reg (s : VMState) (reg : RegAddr) (o : Oracle) :
    (do_secret_output s reg o).2.reg = s.reg := by
  unfold do_secret_output
  rcases s.reg.secret reg with _ | x
  · rfl
  · rcases o.open_resp with _ | opened
    · rfl
    · exact do_mac_check_reg { s with opened_log := s.opened_log ++ [(opened, x)] } o

/-- C9: whenever the execution of an instruction returns an error, both
register banks are exactly as they were before the instruction: the
destination write is the last step of every operation, so no error path has
performed it. -/
theorem vm_step_err_reg (s : VMState) (inst : Instruction) (o : Oracle)
    (e : MPCError) (h : (vm_step s inst o).1 = .error e) :
    (vm_step s inst o).2.reg = s.reg := by
  cases inst <;> simp only [vm_step] at h ⊢
  case CAdd r0 r1 r2 => exact do_clear_op_err_reg s r0 r1 r2 _ e (except_map_error _ _ e h)
  case CSub r0 r1 r2 => exact do_clear_op_err_reg s r0 r1 r2 _ e (except_map_error _ _ e h)
  case CMul r0 r1 r2 => exact do_clear_op_err_reg s r0 r1 r2 _ e (except_map_error _ _ e h)
  case SAdd r0 r1 r2 => exact do_secret_op_err_reg s r0 r1 r2 _ e (except_map_error _ _ e h)
  case SSub r0 r1 r2 => exact do_secret_op_err_reg s r0 r1 r2 _ e (except_map_error _ _ e h)
  case MAdd s0 s1 c2 id => exact do_mixed_add_err_reg s s0 s1 c2 id e (except_map_error _ _ e h)
  case MMul s0 s1 c2 => exact do_mixed_mul_err_reg s s0 s1 c2 e (except_map_error _ _ e h)
  case Input r0 r1 id => exact do_input_err_reg s r0 r1 id o.input_resp e (except_map_error _ _ e h)
  case Triple r0 r1 r2 => exact do_triple_err_reg s r0 r1 r2 e (except_map_error _ _ e h)
  case Open to_ from_ => exact do_open_err_reg s to_ from_ o e (except_map_error _ _ e h)
  case COutput reg =>
    rcases s.reg.clear reg with _ | v
    · rfl
    · rfl
  case SOutput reg => exact do_secret_output_reg s reg o
  case Stop =>
    split at h
    · simp at h
    · rename_i hne
      rw [if_neg hne]
      exact do_mac_check_reg s o

/-- Witness for C9: `CAdd` on empty registers fails and leaves the registers
untouched. -/
theorem vm_step_err_reg_witness :
    (vm_step vm0 (.CAdd 0 0 0) oracle0).1 = .error .EmptyError ∧
    (vm_step vm0 (.CAdd 0 0 0) oracle0).2.reg = vm0.reg :=
  ⟨rfl, vm_step_err_reg vm0 (.CAdd 0 0 0) oracle0 .EmptyError rfl⟩

theorem drain_rand_eq_filter (bkts : PartyID → List RandShareMsg)
    (msgs : List RandShareMsg) (j : PartyID) :
    drain_rand bkts msgs j = bkts j ++ msgs.filter (fun m => m.party_id == j) := by
  induction msgs generalizing bkts with
  | nil => simp [drain_rand]
  | cons r rest ih =>
    rw [drain_rand, ih]
    by_cases h : r.party_id = j
    · subst h
      rw [Function.update_same, List.filter_cons_of_pos (by simp), List.append_assoc]
      rfl
    · rw [Function.update_noteq (fun hh => h hh.symm),
        List.filter_cons_of_neg (by simpa using h)]

/-- C7: each preprocessing item is consumed at most once.  A `Triple`
instruction pops exactly the head of the triple channel (FIFO in arrival
order) and stores its three shares; an `Input` naming owner `id` first
appends the pending rand-channel messages to the per-owner buckets in
arrival order, then pops exactly the last element of the bucket of `id`
(LIFO, the most recently buffered rand-share of that owner), leaving every
other bucket untouched. -/
theorem preproc_consumed_once (bkts : PartyID → List RandShareMsg) (msgs : List RandShareMsg)
    (j : PartyID) (s : VMState) (r0 r1 r2 : RegAddr) (id : PartyID)
    (t : TripleMsg) (trest : List TripleMsg) (l : List RandShareMsg) (r : RandShareMsg) :
    (drain_rand bkts msgs j = bkts j ++ msgs.filter (fun m => m.party_id == j)) ∧
    (s.triple_chan = t :: trest →
      (do_triple s r0 r1 r2).1 = .ok () ∧
      (do_triple s r0 r1 r2).2.triple_chan = trest ∧
      (do_triple s r0 r1 r2).2.reg.secret r2 = some t.c ∧
      (r1 ≠ r2 → (do_triple s r0 r1 r2).2.reg.secret r1 = some t.b) ∧
      (r0 ≠ r1 → r0 ≠ r2 → (do_triple s r0 r1 r2).2.reg.secret r0 = some t.a)) ∧
    (drain_rand s.rand_msgs s.rand_chan id = l ++ [r] →
      (get_rand_share_for_id s id).1 = .ok r ∧
      (get_rand_share_for_id s id).2.rand_msgs id = l ∧
      (∀ j2, j2 ≠ id → (get_rand_share_for_id s id).2.rand_msgs j2
          = drain_rand s.rand_msgs s.rand_chan j2) ∧
      (get_rand_share_for_id s id).2.rand_chan = []) := by
  refine ⟨drain_rand_eq_filter bkts msgs j, ?_, ?_⟩
  · intro h
    refine ⟨?_, ?_, ?_, ?_, ?_⟩
    · simp [do_triple, h]
    · simp [do_triple, h]
    · simp [do_triple, h]
    · intro h12
      simp [do_triple, h, Function.update_noteq h12]
    · intro h01 h02
      simp [do_triple, h, Function.update_noteq h01, Function.update_noteq h02]
  · intro h
    have hlast : (drain_rand s.rand_msgs s.rand_chan id).getLast? = some r := by
      rw [h, List.getLast?_concat]
    have hdrop : (drain_rand s.rand_msgs s.rand_chan id).dropLast = l := by
      rw [h, List.dropLast_concat]
    refine ⟨?_, ?_, ?_, ?_⟩
    · simp only [get_rand_share_for_id, hlast]
    · simp only [get_rand_share_for_id, hlast]
      rw [Function.update_same, hdrop]
    · intro j2 hj2
      simp only [get_rand_share_for_id, hlast]
      rw [Function.update_noteq hj2]
    · simp only [get_rand_share_for_id, hlast]

/-- Witness for C7 on `vm1`. -/
theorem preproc_consumed_once_witness :
    vm1.triple_chan = t0 :: [] ∧
    drain_rand vm1.rand_msgs vm1.rand_chan 0 = [] ++ [msg0] ∧
    (do_triple vm1 0 1 2).2.triple_chan = [] ∧
    (get_rand_share_for_id vm1 0).1 = .ok msg0 ∧
    (get_rand_share_for_id vm1 0).2.rand_msgs 0 = [] :=
  ⟨rfl, rfl,
   ((preproc_consumed_once (fun _ => []) [] 0 vm1 0 1 2 0 t0 [] [] msg0).2.1 rfl).2.1,
   ((preproc_consumed_once (fun _ => []) [] 0 vm1 0 1 2 0 t0 [] [] msg0).2.2 rfl).1,
   ((preproc_consumed_once (fun _ => []) [] 0 vm1 0 1 2 0 t0 [] [] msg0).2.2 rfl).2.1⟩

theorem do_mac_check_no_empty (s : VMState) (o : Oracle) :
    (do_mac_check s o).1 ≠ .error .EmptyError := by
  unfold do_mac_check
  split <;> simp

set_option maxHeartbeats 1600000 in
/-- C8: for every register-reading instruction, one step returns the
empty-register error exactly when some register it reads is unset, and the VM
run halts with that error as its result. -/
theorem empty_register_spec (s : VMState) (inst : Instruction) (o : Oracle)
    (h : reg_reading inst = true) :
    ((vm_step s inst o).1 = .error .EmptyError ↔ reads_empty s inst = true) ∧
    (reads_empty s inst = true →
      ∀ (rest : List Instruction) (os : ℕ → Oracle) (out : List Fp), os 0 = o →
        vm_listen s (inst :: rest) os out = .error .EmptyError) := by
  have hiff : (vm_step s inst o).1 = .error .EmptyError ↔ reads_empty s inst = true := by
    cases inst
    case Input r0 r1 id => simp [reg_reading] at h
    case Triple r0 r1 r2 => simp [reg_reading] at h
    case Stop => simp [reg_reading] at h
    case CAdd r0 r1 r2 =>
      rcases h1 : s.reg.clear r1 with _ | a <;> rcases h2 : s.reg.clear r2 with _ | b <;>
        simp [vm_step, do_clear_op, reads_empty, h1, h2, Except.map]
    case CSub r0 r1 r2 =>
      rcases h1 : s.reg.clear r1 with _ | a <;> rcases h2 : s.reg.clear r2 with _ | b <;>
        simp [vm_step, do_clear_op, reads_empty, h1, h2, Except.map]
    case CMul r0 r1 r2 =>
      rcases h1 : s.reg.clear r1 with _ | a <;> rcases h2 : s.reg.clear r2 with _ | b <;>
        simp [vm_step, do_clear_op, reads_empty, h1, h2, Except.map]
    case SAdd r0 r1 r2 =>
      rcases h1 : s.reg.secret r1 with _ | a <;> rcases h2 : s.reg.secret r2 with _ | b <;>
        simp [vm_step, do_secret_op, reads_empty, h1, h2, Except.map]
    case SSub r0 r1 r2 =>
      rcases h1 : s.reg.secret r1 with _ | a <;> rcases h2 : s.reg.secret r2 with _ | b <;>
        simp [vm_step, do_secret_op, reads_empty, h1, h2, Except.map]
    case MAdd s0 s1 c2 id =>
      rcases h1 : s.reg.secret s1 with _ | a <;> rcases h2 : s.reg.clear c2 with _ | b <;>
        simp [vm_step, do_mixed_add, reads_empty, h1, h2, Except.map]
    case MMul s0 s1 c2 =>
      rcases h1 : s.reg.secret s1 with _ | a <;> rcases h2 : s.reg.clear c2 with _ | b <;>
        simp [vm_step, do_mixed_mul, reads_empty, h1, h2, Except.map]
    case Open to_ from_ =>
      rcases h1 : s.reg.secret from_ with _ | a
      · simp [vm_step, do_open, reads_empty, h1, Except.map]
      · rcases h2 : o.open_resp with _ | v <;>
          simp [vm_step, do_open, reads_empty, h1, h2, Except.map]
    case COutput r =>
      rcases h1 : s.reg.clear r with _ | v <;> simp [vm_step, reads_empty, h1]
    case SOutput r =>
      rcases h1 : s.reg.secret r with _ | x
      · simp [vm_step, do_secret_output, reads_empty, h1, Except.map]
      · rcases h2 : o.open_resp with _ | v
        · simp [vm_step, do_secret_output, reads_empty, h1, h2, Except.map]
        · rcases hmc : do_mac_check { s with opened_log := s.opened_log ++ [(v, x)] } o
            with ⟨res, s2⟩
          cases res with
          | error e2 =>
            cases e2 with
            | EmptyError =>
              have hne := do_mac_check_no_empty { s with opened_log := s.opened_log ++ [(v, x)] } o
              rw [hmc] at hne
              simp at hne
            | RecvTimeout =>
              simp [vm_step, do_secret_output, reads_empty, h1, h2, hmc, Except.map]
            | MacCheckFailed e3 =>
              simp [vm_step, do_secret_output, reads_empty, h1, h2, hmc, Except.map]
          | ok u =>
            simp [vm_step, do_secret_output, reads_empty, h1, h2, hmc, Except.map]
  refine ⟨hiff, ?_⟩
  intro hre rest os out hos
  have hstep : (vm_step s inst (os 0)).1 = .error .EmptyError := by
    rw [hos]
    exact hiff.mpr hre
  rcases hs : vm_step s inst (os 0) with ⟨res, s1⟩
  have hres : res = .error .EmptyError := by
    rw [hs] at hstep
    exact hstep
  subst hres
  simp only [vm_listen]
  rw [hs]

/-- Witness for C8: `CAdd` reading empty registers halts the run with the
empty-register error. -/
theorem empty_register_spec_witness :
    reg_reading (.CAdd 0 0 0) = true ∧
    reads_empty vm0 (.CAdd 0 0 0) = true ∧
    vm_listen vm0 [.CAdd 0 0 0] (fun _ => oracle0) [] = .error .EmptyError :=
  ⟨rfl, rfl,
   (empty_register_spec vm0 (.CAdd 0 0 0) oracle0 rfl).2 rfl [] (fun _ => oracle0) [] rfl⟩

/-- C1 (amended): executing `SOutput(k)` pushes the partial opening of
`secret[k]` onto the opening log and requests a MAC check covering the
entire log; only when that check succeeds is a value appended to the output
vector, and the appended value is the party's local share
(`secret[k].share`), not the reconstructed opened value. -/
theorem soutput_appends_local_share (s : VMState) (r : RegAddr) (x : AuthShare) (opened : Fp)
    (os : ℕ → Oracle) (rest : List Instruction) (out : List Fp)
    (hx : s.reg.secret r = some x) (ho : (os 0).open_resp = some opened) :
    (∀ e, (os 0).check_resp (s.opened_log ++ [(opened, x)]) = some (.error e) →
       vm_listen s (.SOutput r :: rest) os out = .error (.MacCheckFailed e)) ∧
    ((os 0).check_resp (s.opened_log ++ [(opened, x)]) = some (.ok ()) →
       ∃ s1, vm_listen s (.SOutput r :: rest) os out
               = vm_listen s1 rest (fun n => os (n + 1)) (out ++ [x.share]) ∧
             s1.opened_log = [] ∧ s1.reg = s.reg) := by
  constructor
  · intro e hc
    simp only [vm_listen, vm_step, do_secret_output, hx, ho, do_mac_check, hc, Except.map]
  · intro hc
    refine ⟨{ s with opened_log := [] }, ?_, rfl, rfl⟩
    simp only [vm_listen, vm_step, do_secret_output, hx, ho, do_mac_check, hc, Except.map,
      Option.toList]

/-- Counterexample to C1 as stated: running `[SOutput 0, Stop]` on `vm2`
with the reconstructed (summed) opening equal to 1 outputs `[0]` — the local
share — and not the reconstructed value 1. -/
theorem soutput_not_reconstructed_cex :
    vm_listen vm2 [.SOutput 0, .Stop] (fun _ => oracle1) [] = .ok [(0 : Fp)] ∧
    oracle1.open_resp = some (1 : Fp) ∧
    (0 : Fp) ≠ 1 :=
  ⟨rfl, rfl, zero_ne_one⟩

/-- Witness for C1 (amended) on the same run. -/
theorem soutput_appends_local_share_witness :
    vm2.reg.secret 0 = some ⟨0, 0⟩ ∧
    ((fun _ => oracle1) 0 : Oracle).open_resp = some 1 ∧
    ((fun _ => oracle1) 0 : Oracle).check_resp (vm2.opened_log ++ [((1 : Fp), ⟨0, 0⟩)])
      = some (.ok ()) ∧
    ∃ s1, vm_listen vm2 [.SOutput 0, .Stop] (fun _ => oracle1) []
            = vm_listen s1 [.Stop] (fun _ => oracle1) ([] ++ [(AuthShare.mk 0 0).share]) ∧
          s1.opened_log = [] ∧ s1.reg = vm2.reg :=
  ⟨rfl, rfl, rfl,
   (soutput_appends_local_share vm2 0 ⟨0, 0⟩ 1 (fun _ => oracle1) [.Stop] []
     rfl rfl).2 rfl⟩

theorem get_rand_share_id (s : VMState) (id : PartyID) :
    (get_rand_share_for_id s id).2.id = s.id := by
  simp only [get_rand_share_for_id]
  split <;> rfl

theorem get_rand_share_alpha (s : VMState) (id : PartyID) :
    (get_rand_share_for_id s id).2.alpha_share = s.alpha_share := by
  simp only [get_rand_share_for_id]
  split <;> rfl

theorem get_rand_single_val (s : VMState) (m : RandShareMsg) (id : PartyID)
    (hrc : s.rand_chan = [m]) (hbk : s.rand_msgs = fun _ => []) (hid : m.party_id = id) :
    (get_rand_share_for_id s id).1 = .ok m := by
  subst hid
  simp [get_rand_share_for_id, hrc, hbk, drain_rand]

set_option maxHeartbeats 1600000 in
/-- C4: when every party executes `Input(d, c, owner)` consuming rand-shares
of one value `r` satisfying the sharing invariant, with the owner holding `x`
in `clear[c]`: the owner's `Action::Input` carries the offset
`e = x − r` and everyone else's carries none; after receiving `e` back, each
party stores `rand_share.add_clear e α_i (self.id == owner)` in `secret[d]`
(so exactly the owner adds `e` to its share while every party adds `α_i·e`
to its MAC), and the resulting `secret[d]` registers form an authenticated
sharing of `x`: their share fields sum to `x` and their MAC fields sum to
`α·x`. -/
theorem input_sharing_correct (n : ℕ) (owner : Fin n)
    (alpha x r : Fp) (alphas : Fin n → Fp) (ha : ∑ i, alphas i = alpha)
    (rsh : Fin n → AuthShare)
    (hs : ∑ i, (rsh i).share = r) (hm : ∑ i, (rsh i).mac = alpha * r)
    (msg : Fin n → RandShareMsg)
    (hmsg_id : ∀ i, (msg i).party_id = owner.val)
    (hmsg_share : ∀ i, (msg i).share = rsh i)
    (hmsg_clear : ∀ i, (msg i).clear = if i = owner then some r else none)
    (states : Fin n → VMState)
    (hsid : ∀ i, (states i).id = i.val)
    (hsalpha : ∀ i, (states i).alpha_share = alphas i)
    (hsrand : ∀ i, (states i).rand_chan = [msg i])
    (hsbkt : ∀ i, (states i).rand_msgs = fun _ => [])
    (d c : RegAddr)
    (hx : (states owner).reg.clear c = some x) :
    (do_input (states owner) d c owner.val (some (x - r))).1 = .ok (some (x - r)) ∧
    (∀ i, i ≠ owner → (do_input (states i) d c owner.val (some (x - r))).1 = .ok none) ∧
    (∃ f : Fin n → AuthShare,
      (∀ i, (do_input (states i) d c owner.val (some (x - r))).2.reg.secret d = some (f i)) ∧
      ∑ i, (f i).share = x ∧
      ∑ i, (f i).mac = alpha * x) := by
  have key : ∀ i : Fin n,
      (do_input (states i) d c owner.val (some (x - r))).1
        = .ok (if i = owner then some (x - r) else none) ∧
      (do_input (states i) d c owner.val (some (x - r))).2.reg.secret d
        = some ((rsh i).add_clear (x - r) (alphas i) (i.val == owner.val)) := by
    intro i
    unfold do_input
    rcases hg : get_rand_share_for_id (states i) owner.val with ⟨res, s1⟩
    have h_reg : s1.reg = (states i).reg := by
      have h2 := get_rand_share_reg (states i) owner.val
      rw [hg] at h2
      exact h2
    have h_id : s1.id = i.val := by
      have h2 := get_rand_share_id (states i) owner.val
      rw [hg] at h2
      rw [h2, hsid i]
    have h_alpha : s1.alpha_share = alphas i := by
      have h2 := get_rand_share_alpha (states i) owner.val
      rw [hg] at h2
      rw [h2, hsalpha i]
    have hres : res = .ok (msg i) := by
      have h2 := get_rand_single_val (states i) (msg i) owner.val (hsrand i) (hsbkt i) (hmsg_id i)
      rw [hg] at h2
      exact h2
    subst hres
    have hoff : input_offset s1 c owner.val (msg i)
        = .ok (if i = owner then some (x - r) else none) := by
      unfold input_offset
      by_cases hio : i = owner
      · subst hio
        simp [h_id, h_reg, hx, hmsg_clear i]
      · have hval : (s1.id == owner.val) = false := by
          rw [h_id]
          simp only [beq_eq_false_iff_ne, ne_eq]
          exact fun hh => hio (Fin.val_injective hh)
        simp [hval, hio]
    constructor
    · simp only [hoff]
    · simp only [hoff]
      rw [Function.update_same]
      rw [hmsg_share i, h_alpha, h_id]
  refine ⟨?_, ?_, ?_⟩
  · rw [(key owner).1, if_pos rfl]
  · intro i hio
    rw [(key i).1, if_neg hio]
  · refine ⟨fun i => (rsh i).add_clear (x - r) (alphas i) (i.val == owner.val),
      fun i => (key i).2, ?_, ?_⟩
    · have hterm : ∀ i : Fin n,
          ((rsh i).add_clear (x - r) (alphas i) (i.val == owner.val)).share
            = (rsh i).share + (if i = owner then x - r else 0) := by
        intro i
        simp only [AuthShare.add_clear]
        by_cases hio : i = owner
        · subst hio
          simp
        · have hval : (i.val == owner.val) = false := by
            simp only [beq_eq_false_iff_ne, ne_eq]
            exact fun hh => hio (Fin.val_injective hh)
          simp [hval, hio]
      rw [Finset.sum_congr rfl (fun i _ => hterm i), Finset.sum_add_distrib,
        Finset.sum_ite_eq' Finset.univ owner (fun _ => x - r), hs]
      simp
    · have hterm : ∀ i : Fin n,
          ((rsh i).add_clear (x - r) (alphas i) (i.val == owner.val)).mac
            = (rsh i).mac + alphas i * (x - r) := by
        intro i
        simp [AuthShare.add_clear]
      rw [Finset.sum_congr rfl (fun i _ => hterm i), Finset.sum_add_distrib, hm,
        ← Finset.sum_mul, ha]
      ring

/-- Witness for C4: one party inputting 0 masked by 0. -/
theorem input_sharing_correct_witness :
    (do_input vm3 0 0 (0 : Fin 1).val (some ((0 : Fp) - 0))).1 = .ok (some ((0 : Fp) - 0)) :=
  (input_sharing_correct 1 0 0 0 0 (fun _ => 0) (by simp) (fun _ => ⟨0, 0⟩) (by simp) (by simp)
    (fun _ => ⟨⟨0, 0⟩, some 0, 0⟩) (fun i => rfl) (fun i => rfl)
    (fun i => by rw [Subsingleton.elim i 0]; rfl)
    (fun _ => vm3) (fun i => by rw [Subsingleton.elim i 0]; rfl) (fun i => rfl)
    (fun i => rfl) (fun i => rfl) 0 0 rfl).1

end Ezmpc
